import Mathlib

/-!
Shallow embedding of the PoseBusters molecular-geometry loss engine.

The five loss terms (`bond_length_loss`, `bond_angle_loss`,
`ring_planarity_loss`, `steric_clash_loss`, `chirality_loss`) and the
aggregator `total_loss` are translated from the Python/PyTorch source.
Tensors become lists, `torch.mean` of an empty tensor (a NaN) becomes
`none`, a raised `ValueError` becomes `Except.error`, and the output of
`torch.svd` (the plane normal per ring) is passed in explicitly and is
characterised, where a claim needs it, by the defining property of the
right singular vector for the smallest singular value of a symmetric
positive-semidefinite matrix: a unit vector minimising the quadratic form.
-/

namespace PoseBusters

noncomputable section

/-- A 3-D point (one row of a `[*, 3]` tensor). -/
abbrev Pt := Fin 3 → ℝ

/-- Dot product of two 3-vectors (`torch.sum (a * b, dim 1)` per row). -/
def dot3 (x y : Pt) : ℝ := ∑ i, x i * y i

/-- Squared Euclidean norm of a 3-vector. -/
def sq3 (v : Pt) : ℝ := dot3 v v

/-- Euclidean norm (`torch.norm`, per row). -/
def norm3 (v : Pt) : ℝ := Real.sqrt (sq3 v)

/-- Euclidean distance between two points (one entry of `torch.cdist`). -/
def dist3 (x y : Pt) : ℝ := norm3 (x - y)

/-- `torch.relu`. -/
def relu (x : ℝ) : ℝ := max x 0

/-- `torch.clamp x (-1.0) 1.0`, as in the bond-angle term. -/
def clamp1 (x : ℝ) : ℝ := max (-1) (min x 1)

/-- Tensor row indexing `positions[i]`. -/
def getPos (pos : List Pt) (i : ℕ) : Pt := pos.getD i 0

/-- `torch.mean` over all entries of a (flattened) tensor; the mean of an
empty tensor is NaN, modelled as `none`. -/
def torchMean (l : List ℝ) : Option ℝ :=
  if l = [] then none else some (l.sum / l.length)

/-- The additive epsilon `1e-6` used in the bond-angle denominator. -/
def angleEps : ℝ := 1 / 1000000

/-- `bond_length_loss` from `src/bond_length_loss.py`: mean over bonds of
the squared difference between the predicted bond length and its target. -/
def bond_length_loss (pred_positions : List Pt) (bond_indices : List (ℕ × ℕ))
    (target_lengths : List ℝ) : Option ℝ :=
  torchMean (List.zipWith
    (fun b t =>
      (dist3 (getPos pred_positions b.1) (getPos pred_positions b.2) - t) ^ 2)
    bond_indices target_lengths)

/-- The clamped cosine computed for one angle triple `(i, j, k)` (central
atom `j`) in `src/bond_angle_loss.py`. -/
def cosOfTriple (positions : List Pt) (ijk : ℕ × ℕ × ℕ) : ℝ :=
  let a := getPos positions ijk.1 - getPos positions ijk.2.1
  let b := getPos positions ijk.2.2 - getPos positions ijk.2.1
  clamp1 (dot3 a b / (norm3 a * norm3 b + angleEps))

/-- The denominator `|a| * |b| + 1e-6` for one angle triple. -/
def angleDenom (positions : List Pt) (ijk : ℕ × ℕ × ℕ) : ℝ :=
  norm3 (getPos positions ijk.1 - getPos positions ijk.2.1)
    * norm3 (getPos positions ijk.2.2 - getPos positions ijk.2.1) + angleEps

/-- The predicted angle (radians) for one triple: arccos of the clamped
cosine. -/
def angleOfTriple (positions : List Pt) (ijk : ℕ × ℕ × ℕ) : ℝ :=
  Real.arccos (cosOfTriple positions ijk)

/-- `bond_angle_loss` from `src/bond_angle_loss.py`: mean over triples of
the squared difference between the predicted and the target angle. -/
def bond_angle_loss (positions : List Pt) (angle_indices : List (ℕ × ℕ × ℕ))
    (target_angles_rad : List ℝ) : Option ℝ :=
  torchMean (List.zipWith
    (fun ijk t => (angleOfTriple positions ijk - t) ^ 2)
    angle_indices target_angles_rad)

/-- Centroid of a ring (`torch.mean (ring_positions, dim 1)`). -/
def ptMean (ps : List Pt) : Pt :=
  fun i => (ps.map (fun p => p i)).sum / ps.length

/-- The 3×3 covariance (scatter) matrix of a ring's centred points
(`torch.bmm (centered.transpose 1 2) centered`, one batch element). -/
def covMat (ps : List Pt) : Matrix (Fin 3) (Fin 3) ℝ :=
  fun i j =>
    (ps.map (fun p => (p i - ptMean ps i) * (p j - ptMean ps j))).sum

/-- The squared signed out-of-plane distances of one ring's points, for a
plane through the centroid with normal `n` (the `einsum` row followed by
squaring). -/
def ringSqDists (ps : List Pt) (n : Pt) : List ℝ :=
  ps.map (fun p => dot3 (p - ptMean ps) n ^ 2)

/-- `ring_planarity_loss` from `src/loss/aromatic_ring_planarity_loss.py`.
The per-ring plane normals (the last column of `v` from `torch.svd` of the
covariance matrix) are passed in as `normals`; the result is the mean of
the squared out-of-plane distances over all rings and all atoms. -/
def ring_planarity_loss (ring_positions : List (List Pt)) (normals : List Pt) :
    Option ℝ :=
  torchMean (List.zipWith ringSqDists ring_positions normals).flatten

/-- The defining property of the normal the code extracts via `torch.svd`:
for a symmetric PSD matrix `C`, the right singular vector of the smallest
singular value is a unit vector minimising the quadratic form `vᵀ C v`. -/
def IsMinNormal (C : Matrix (Fin 3) (Fin 3) ℝ) (n : Pt) : Prop :=
  sq3 n = 1 ∧ ∀ v : Pt, sq3 v = 1 → dot3 n (C.mulVec n) ≤ dot3 v (C.mulVec v)

/-- `steric_clash_loss` from `src/loss/steric_clash_loss.py`: pairwise
distances, minimum allowed distance `threshold * (r_i + r_j)`, ReLU clash
scores, diagonal masked out, then the sum of squares. -/
def steric_clash_loss (positions : List Pt) (vdw_radii : List ℝ)
    (threshold : ℝ) : ℝ :=
  ∑ i ∈ Finset.range positions.length, ∑ j ∈ Finset.range positions.length,
    (relu (threshold * (vdw_radii.getD i 0 + vdw_radii.getD j 0)
        - dist3 (getPos positions i) (getPos positions j))
      * (if i = j then 0 else 1)) ^ 2

/-- The draft `steric_clash_loss` from `src/steric_clash_loss.py`.  That
module contains no import of `torch`, so the first statement of the body
(`torch.cdist`) raises `NameError: name 'torch' is not defined` on every
call: the function never returns a value. -/
def steric_clash_loss_draft (positions : List Pt) (vdw_radii : List ℝ)
    (threshold : ℝ) : Except String ℝ :=
  Except.error "NameError: name 'torch' is not defined"

/-- The clash formula the draft's body spells out (what
`src/steric_clash_loss.py` would compute if `torch` were in scope): clash
scores `relu (threshold * sum_vdw - dist)` multiplied by `~mask`, then
squared and summed. -/
def steric_clash_draft_formula (positions : List Pt) (vdw_radii : List ℝ)
    (threshold : ℝ) : ℝ :=
  ∑ i ∈ Finset.range positions.length, ∑ j ∈ Finset.range positions.length,
    (relu (threshold * (vdw_radii.getD i 0 + vdw_radii.getD j 0)
        - dist3 (getPos positions i) (getPos positions j))
      * (if i = j then 0 else 1)) ^ 2

/-- Determinant of the 3×3 matrix with rows `r0, r1, r2` (`torch.det`). -/
def det3 (r0 r1 r2 : Pt) : ℝ :=
  r0 0 * (r1 1 * r2 2 - r1 2 * r2 1)
    - r0 1 * (r1 0 * r2 2 - r1 2 * r2 0)
    + r0 2 * (r1 0 * r2 1 - r1 1 * r2 0)

/-- The `ValueError` message raised by `src/loss/chirality_loss.py` for a
chiral centre whose neighbour list does not have exactly 4 entries. -/
def chirErrMsg (center_idx got : ℕ) : String :=
  "Chiral center at index " ++ toString center_idx
    ++ " needs exactly 4 neighbors, got " ++ toString got

/-- The signed tetrahedron volume for one chiral centre: determinant of the
first three difference vectors `vec[:3]`. -/
def chirVol (positions : List Pt) (center_idx : ℕ) (neighbors : List ℕ) : ℝ :=
  let vec := neighbors.map (fun k => getPos positions k - getPos positions center_idx)
  det3 (vec.getD 0 0) (vec.getD 1 0) (vec.getD 2 0)

/-- The accumulator loop of `chirality_loss`: raises on the first bad
neighbour count, otherwise adds `relu (-vol)` per constraint. -/
def chiralityGo (positions : List Pt) (acc : ℝ) :
    List (ℕ × List ℕ) → Except String ℝ
  | [] => Except.ok acc
  | (c, ns) :: rest =>
    if ns.length ≠ 4 then Except.error (chirErrMsg c ns.length)
    else chiralityGo positions (acc + relu (-chirVol positions c ns)) rest

/-- `chirality_loss` from `src/loss/chirality_loss.py`. -/
def chirality_loss (positions : List Pt) (chiral_centers : List (ℕ × List ℕ)) :
    Except String ℝ :=
  chiralityGo positions 0 chiral_centers

/-- The gather `positions[rings]` done by the aggregator. -/
def ringCoords (positions : List Pt) (rings : List (List ℕ)) : List (List Pt) :=
  rings.map (fun r => r.map (getPos positions))

/-- `total_loss` from `src/total_loss.py`: the weighted sum
`1.0 * bond_length + 0.5 * bond_angle + 0.3 * ring_planarity +
0.2 * steric_clash + 0.2 * chirality` with the weights written as literals
in the function body.  A raised `ValueError` from the chirality term is an
`Except.error`; a NaN arising from the mean of an empty tensor is `none`. -/
def total_loss (positions : List Pt)
    (bond_indices : List (ℕ × ℕ)) (bond_targets : List ℝ)
    (angle_indices : List (ℕ × ℕ × ℕ)) (angle_targets : List ℝ)
    (rings : List (List ℕ)) (ring_normals : List Pt)
    (vdw_radii : List ℝ) (chiral_centers : List (ℕ × List ℕ)) :
    Except String (Option ℝ) :=
  match chirality_loss positions chiral_centers with
  | Except.error e => Except.error e
  | Except.ok ch => Except.ok
      ((bond_length_loss positions bond_indices bond_targets).bind fun bl =>
        (bond_angle_loss positions angle_indices angle_targets).bind fun ba =>
          (ring_planarity_loss (ringCoords positions rings) ring_normals).map fun rp =>
            1 * bl + (1 / 2) * ba + (3 / 10) * rp
              + (1 / 5) * steric_clash_loss positions vdw_radii (3 / 4)
              + (1 / 5) * ch)

/-- The predicted length of one bond (the row of `predicted_lengths` for
the pair `b`). -/
def bondLen (positions : List Pt) (b : ℕ × ℕ) : ℝ :=
  dist3 (getPos positions b.1) (getPos positions b.2)

/-! ### Concrete fixture: two bonded atoms placed 0.1 apart

Atom 0 at the origin and atom 1 at distance `1/10` along the x-axis, both
with van der Waals radius 1, bonded to each other with target length
`1/10`.  With threshold `0.75` the minimum allowed distance of the pair is
`1.5`, so the pair is well inside the clash threshold. -/

/-- Two atoms, `0.1` apart along the x-axis. -/
def demoPos : List Pt := [![0, 0, 0], ![1 / 10, 0, 0]]

/-- The (unclamped) cosine the angle term computes for the degenerate
triple `(0, 1, 0)` of `demoPos`. -/
def demoCos : ℝ := (1 / 100) / (1 / 100 + 1 / 1000000)

/-- An angle target chosen to make the demo angle residual zero. -/
def demoAngleTarget : ℝ := Real.arccos demoCos

/-! ### Concrete fixture: stretching one bond

Four atoms in the z = 0 plane; atoms 0 and 1 are bonded with target length
1; in `stretchPos` the bond has its target length, in `stretchPos'` atom 1
has moved so the bond has length 2.  Atoms 0, 2, 3 carry the (unchanged)
angle triple and ring. -/

/-- Four atoms; the 0–1 bond has exactly its target length 1. -/
def stretchPos : List Pt := [![0, 0, 0], ![1, 0, 0], ![0, 1, 0], ![1, 1, 0]]

/-- The same atoms with atom 1 moved to distance 2 from atom 0. -/
def stretchPos' : List Pt := [![0, 0, 0], ![2, 0, 0], ![0, 1, 0], ![1, 1, 0]]

/-- A perfectly planar square ring in the z = 0 plane, centred at the
origin. -/
def sqRing : List Pt := [![1, 0, 0], ![0, 1, 0], ![-1, 0, 0], ![0, -1, 0]]

end

/-! ### Basic lemmas about the geometric primitives -/

lemma dot3_eval (x y : Pt) : dot3 x y = x 0 * y 0 + x 1 * y 1 + x 2 * y 2 := by
  simp [dot3, Fin.sum_univ_three]

lemma relu_nonneg (x : ℝ) : 0 ≤ relu x := le_max_right x 0

lemma relu_of_nonpos {x : ℝ} (h : x ≤ 0) : relu x = 0 := max_eq_right h

lemma dist3_nonneg (x y : Pt) : 0 ≤ dist3 x y := Real.sqrt_nonneg _

/-! ### C10: the draft steric clash term never returns a value -/

/-- C10: the draft `steric_clash_loss` of `src/steric_clash_loss.py` does
not return values equal to the packaged term of
`src/loss/steric_clash_loss.py` — it returns no value at all: with no
binding for the name `torch`, every call raises `NameError`, shown with
a concrete input on which the packaged term does return a value (`0`).
The formula the draft's body spells out is nevertheless identical to the
packaged one (both mask only the diagonal; neither excludes bonded pairs),
so only the missing import separates the two files. -/
theorem steric_clash_draft_never_returns :
    (∀ (positions : List Pt) (vdw_radii : List ℝ) (threshold : ℝ) (r : ℝ),
        steric_clash_loss_draft positions vdw_radii threshold
          ≠ Except.ok r) ∧
      steric_clash_loss_draft [![0, 0, 0]] [1] (3 / 4)
          = Except.error "NameError: name 'torch' is not defined" ∧
      steric_clash_loss [![0, 0, 0]] [1] (3 / 4) = 0 ∧
      ∀ (positions : List Pt) (vdw_radii : List ℝ) (threshold : ℝ),
        steric_clash_draft_formula positions vdw_radii threshold
          = steric_clash_loss positions vdw_radii threshold := by
  refine ⟨fun positions vdw_radii threshold r h => ?_, rfl, ?_,
    fun positions vdw_radii threshold => rfl⟩
  · rw [steric_clash_loss_draft] at h
    exact Except.noConfusion h
  · rw [steric_clash_loss]
    rw [show ([![0, 0, 0]] : List Pt).length = 1 from rfl]
    rw [Finset.sum_range_succ, Finset.sum_range_succ]
    simp

/-! ### C3: chirality neighbour-count validation -/

lemma chiralityGo_error_of_bad (positions : List Pt) :
    ∀ (l : List (ℕ × List ℕ)) (acc : ℝ),
      (∃ p ∈ l, p.2.length ≠ 4) →
      ∃ p ∈ l, p.2.length ≠ 4 ∧
        chiralityGo positions acc l = Except.error (chirErrMsg p.1 p.2.length)
  | [], _, h => by simp at h
  | (c, ns) :: rest, acc, h => by
    by_cases hlen : ns.length = 4
    · obtain ⟨p, hp, hbad⟩ := h
      rcases List.mem_cons.mp hp with hhead | htail
      · exact absurd (by rw [hhead]; exact hlen) hbad
      · obtain ⟨q, hq, hqbad, hqeq⟩ :=
          chiralityGo_error_of_bad positions rest
            (acc + relu (-chirVol positions c ns)) ⟨p, htail, hbad⟩
        refine ⟨q, List.mem_cons_of_mem _ hq, hqbad, ?_⟩
        rw [chiralityGo, if_neg (by simp [hlen])]
        exact hqeq
    · refine ⟨(c, ns), List.mem_cons_self _ _, hlen, ?_⟩
      rw [chiralityGo, if_pos hlen]

/-- C3: if some chirality constraint has a neighbour list whose length is
not 4, `chirality_loss` returns the descriptive `ValueError` naming an
offending centre and its actual neighbour count, and never returns a
computed value. -/
theorem chirality_loss_validates_neighbor_count (positions : List Pt)
    (chiral_centers : List (ℕ × List ℕ)) (c : ℕ) (ns : List ℕ)
    (hmem : (c, ns) ∈ chiral_centers) (hbad : ns.length ≠ 4) :
    (∃ p ∈ chiral_centers, p.2.length ≠ 4 ∧
        chirality_loss positions chiral_centers
          = Except.error (chirErrMsg p.1 p.2.length)) ∧
      ∀ r : ℝ, chirality_loss positions chiral_centers ≠ Except.ok r := by
  obtain ⟨p, hp, hpbad, hpeq⟩ :=
    chiralityGo_error_of_bad positions chiral_centers 0 ⟨(c, ns), hmem, hbad⟩
  refine ⟨⟨p, hp, hpbad, hpeq⟩, fun r hr => ?_⟩
  rw [chirality_loss] at hr
  rw [hpeq] at hr
  exact Except.noConfusion hr

/-- Witness for C3: a constraint with 3 neighbours at centre 7 makes
`chirality_loss` fail with the descriptive error rather than compute. -/
theorem chirality_loss_validates_neighbor_count_witness :
    ((7, [1, 2, 3]) ∈ ([(7, [1, 2, 3])] : List (ℕ × List ℕ)) ∧
        ([1, 2, 3] : List ℕ).length ≠ 4) ∧
      (∃ p ∈ ([(7, [1, 2, 3])] : List (ℕ × List ℕ)), p.2.length ≠ 4 ∧
          chirality_loss [] [(7, [1, 2, 3])]
            = Except.error (chirErrMsg p.1 p.2.length)) ∧
        ∀ r : ℝ, chirality_loss [] [(7, [1, 2, 3])] ≠ Except.ok r :=
  ⟨⟨by decide, by decide⟩,
    chirality_loss_validates_neighbor_count [] [(7, [1, 2, 3])] 7 [1, 2, 3]
      (by decide) (by decide)⟩

/-! ### Evaluation of the loss terms on the two-atom fixture -/

lemma dist3_eval (x y : Pt) :
    dist3 x y
      = Real.sqrt ((x 0 - y 0) ^ 2 + (x 1 - y 1) ^ 2 + (x 2 - y 2) ^ 2) := by
  unfold dist3 norm3 sq3
  rw [dot3_eval]
  congr 1
  simp only [Pi.sub_apply]
  ring

lemma demo_dist : dist3 (getPos demoPos 0) (getPos demoPos 1) = 1 / 10 := by
  rw [dist3_eval]
  have h : (getPos demoPos 0 0 - getPos demoPos 1 0) ^ 2
      + (getPos demoPos 0 1 - getPos demoPos 1 1) ^ 2
      + (getPos demoPos 0 2 - getPos demoPos 1 2) ^ 2 = ((1 : ℝ) / 10) ^ 2 := by
    simp [getPos, demoPos, List.getD]
  rw [h, Real.sqrt_sq (by norm_num)]

lemma demo_bl : bond_length_loss demoPos [(0, 1)] [1 / 10] = some 0 := by
  rw [bond_length_loss]
  simp only [List.zipWith]
  rw [demo_dist]
  norm_num [torchMean]

lemma demo_ba :
    bond_angle_loss demoPos [(0, 1, 0)] [demoAngleTarget] = some 0 := by
  have hcos : cosOfTriple demoPos (0, 1, 0) = demoCos := by
    rw [cosOfTriple]
    have ha : dot3 (getPos demoPos 0 - getPos demoPos 1)
        (getPos demoPos 0 - getPos demoPos 1) = 1 / 100 := by
      rw [dot3_eval]
      simp only [getPos, demoPos, List.getD, Pi.sub_apply]
      norm_num
    have hn : norm3 (getPos demoPos 0 - getPos demoPos 1) = 1 / 10 := by
      rw [norm3, sq3, ha]
      rw [show (1 / 100 : ℝ) = (1 / 10) ^ 2 by norm_num]
      exact Real.sqrt_sq (by norm_num)
    rw [ha, hn, angleEps]
    rw [clamp1, demoCos]
    rw [min_eq_left (by norm_num), max_eq_right (by norm_num)]
    norm_num
  rw [bond_angle_loss]
  simp only [List.zipWith]
  rw [angleOfTriple, hcos, demoAngleTarget]
  norm_num [torchMean]

lemma demo_rp :
    ring_planarity_loss (ringCoords demoPos [[0, 1]]) [![0, 0, 1]] = some 0 := by
  rw [ring_planarity_loss, ringCoords]
  simp only [List.map, List.zipWith, List.flatten]
  have h : ∀ p ∈ [getPos demoPos 0, getPos demoPos 1],
      dot3 (p - ptMean [getPos demoPos 0, getPos demoPos 1]) ![0, 0, 1] = 0 := by
    intro p hp
    rw [dot3_eval]
    have h2 : ptMean [getPos demoPos 0, getPos demoPos 1] 2 = 0 := by
      simp [ptMean, getPos, demoPos, List.getD]
    have hp2 : p 2 = 0 := by
      rcases List.mem_cons.mp hp with h | h
      · rw [h]; simp [getPos, demoPos, List.getD]
      · rw [List.mem_singleton.mp h]; simp [getPos, demoPos, List.getD]
    simp [Pi.sub_apply, hp2, h2]
  rw [ringSqDists]
  simp only [List.map]
  rw [h _ (by simp), h _ (by simp)]
  rw [torchMean, if_neg (by simp)]
  norm_num

lemma demo_sc : steric_clash_loss demoPos [1, 1] (3 / 4) = 98 / 25 := by
  rw [steric_clash_loss]
  have hlen : demoPos.length = 2 := by rw [demoPos]; rfl
  rw [hlen]
  rw [Finset.sum_range_succ, Finset.sum_range_succ,
    Finset.sum_range_succ, Finset.sum_range_succ,
    Finset.sum_range_succ, Finset.sum_range_succ]
  simp only [Finset.range_zero, Finset.sum_empty]
  have h01 : dist3 (getPos demoPos 0) (getPos demoPos 1) = 1 / 10 := demo_dist
  have h10 : dist3 (getPos demoPos 1) (getPos demoPos 0) = 1 / 10 := by
    rw [dist3_eval]
    rw [dist3_eval] at h01
    convert h01 using 2
    ring
  rw [h01, h10]
  norm_num
  rw [relu, max_eq_left (by norm_num)]
  norm_num

lemma demo_ch : chirality_loss demoPos [] = Except.ok 0 := rfl

/-! ### C1: the aggregator does not exclude bonded pairs from the clash term -/

/-- C1: the aggregator never passes the bond set to the steric clash term
(the term has no exclusion argument at all).  On the fixture whose only
atom pair is a bonded pair placed at distance `0.1`, far inside the clash
threshold `0.75 * (1 + 1) = 1.5`, every other term vanishes, yet the clash
term evaluates to `98/25` and the total loss to `(1/5) * 98/25 = 98/125 > 0`:
the bonded pair is counted as a clash instead of contributing zero. -/
theorem steric_term_positive_for_bonded_pair :
    steric_clash_loss demoPos [1, 1] (3 / 4) = 98 / 25 ∧
      total_loss demoPos [(0, 1)] [1 / 10] [(0, 1, 0)] [demoAngleTarget]
          [[0, 1]] [![0, 0, 1]] [1, 1] []
        = Except.ok (some (98 / 125)) ∧
      (0 : ℝ) < 98 / 125 := by
  refine ⟨demo_sc, ?_, by norm_num⟩
  rw [total_loss]
  rw [demo_ch]
  rw [demo_bl, demo_ba, demo_rp, demo_sc]
  simp only [Option.bind, Option.map]
  norm_num

/-! ### C2: empty ring set is not skipped; empty chirality set contributes 0 -/

/-- C2: with an empty ring set the aggregator does not skip the ring
planarity term: it evaluates it over the empty batch, whose `torch.mean`
is NaN (`none`), so the total is NaN rather than a sum the ring term
contributes `0` to.  The second half of the claim does hold: an empty
chirality constraint set contributes exactly `Except.ok 0`. -/
theorem total_loss_empty_rings_is_nan :
    total_loss demoPos [(0, 1)] [1 / 10] [(0, 1, 0)] [demoAngleTarget]
        [] [] [1, 1] []
      = Except.ok none ∧
      chirality_loss demoPos [] = Except.ok 0 := by
  refine ⟨?_, demo_ch⟩
  rw [total_loss]
  rw [demo_ch]
  rw [demo_bl, demo_ba]
  rfl

/-- Helper: whenever all four `Option`/`Except` terms evaluate, the
aggregator returns the weighted sum with the literal weights of its body. -/
lemma total_loss_eq (positions : List Pt)
    (bond_indices : List (ℕ × ℕ)) (bond_targets : List ℝ)
    (angle_indices : List (ℕ × ℕ × ℕ)) (angle_targets : List ℝ)
    (rings : List (List ℕ)) (ring_normals : List Pt)
    (vdw_radii : List ℝ) (chiral_centers : List (ℕ × List ℕ))
    (bl ba rp ch : ℝ)
    (hbl : bond_length_loss positions bond_indices bond_targets = some bl)
    (hba : bond_angle_loss positions angle_indices angle_targets = some ba)
    (hrp : ring_planarity_loss (ringCoords positions rings) ring_normals
      = some rp)
    (hch : chirality_loss positions chiral_centers = Except.ok ch) :
    total_loss positions bond_indices bond_targets angle_indices
        angle_targets rings ring_normals vdw_radii chiral_centers
      = Except.ok (some (1 * bl + (1 / 2) * ba + (3 / 10) * rp
          + (1 / 5) * steric_clash_loss positions vdw_radii (3 / 4)
          + (1 / 5) * ch)) := by
  rw [total_loss, hch, hbl, hba, hrp]
  rfl

/-! ### C4: the weights are hardcoded literals in the aggregator body -/

/-- C4: `total_loss` takes no weight-configuration argument; whenever all
five terms evaluate, it returns the weighted sum with the literal weights
`1.0, 0.5, 0.3, 0.2, 0.2` written in its body (and no caller-supplied
weights can enter the computation). -/
theorem total_loss_fixed_weights (positions : List Pt)
    (bond_indices : List (ℕ × ℕ)) (bond_targets : List ℝ)
    (angle_indices : List (ℕ × ℕ × ℕ)) (angle_targets : List ℝ)
    (rings : List (List ℕ)) (ring_normals : List Pt)
    (vdw_radii : List ℝ) (chiral_centers : List (ℕ × List ℕ))
    (bl ba rp ch : ℝ)
    (hbl : bond_length_loss positions bond_indices bond_targets = some bl)
    (hba : bond_angle_loss positions angle_indices angle_targets = some ba)
    (hrp : ring_planarity_loss (ringCoords positions rings) ring_normals
      = some rp)
    (hch : chirality_loss positions chiral_centers = Except.ok ch) :
    total_loss positions bond_indices bond_targets angle_indices
        angle_targets rings ring_normals vdw_radii chiral_centers
      = Except.ok (some (1 * bl + (1 / 2) * ba + (3 / 10) * rp
          + (1 / 5) * steric_clash_loss positions vdw_radii (3 / 4)
          + (1 / 5) * ch)) :=
  total_loss_eq positions bond_indices bond_targets angle_indices
    angle_targets rings ring_normals vdw_radii chiral_centers
    bl ba rp ch hbl hba hrp hch

/-- Witness for C4: on the two-atom fixture all of bond length, bond angle,
ring planarity and chirality evaluate to `0`, and the total is the
hardcoded weighted sum. -/
theorem total_loss_fixed_weights_witness :
    (bond_length_loss demoPos [(0, 1)] [1 / 10] = some 0 ∧
        bond_angle_loss demoPos [(0, 1, 0)] [demoAngleTarget] = some 0 ∧
        ring_planarity_loss (ringCoords demoPos [[0, 1]]) [![0, 0, 1]]
          = some 0 ∧
        chirality_loss demoPos [] = Except.ok 0) ∧
      total_loss demoPos [(0, 1)] [1 / 10] [(0, 1, 0)] [demoAngleTarget]
          [[0, 1]] [![0, 0, 1]] [1, 1] []
        = Except.ok (some (1 * 0 + (1 / 2) * 0 + (3 / 10) * 0
            + (1 / 5) * steric_clash_loss demoPos [1, 1] (3 / 4)
            + (1 / 5) * 0)) :=
  ⟨⟨demo_bl, demo_ba, demo_rp, demo_ch⟩,
    total_loss_fixed_weights demoPos [(0, 1)] [1 / 10] [(0, 1, 0)]
      [demoAngleTarget] [[0, 1]] [![0, 0, 1]] [1, 1] [] 0 0 0 0
      demo_bl demo_ba demo_rp demo_ch⟩

/-! ### Generic list lemmas used for the mean-based terms -/

lemma exists_of_mem_zipWith {α β γ : Type} (f : α → β → γ) :
    ∀ (as : List α) (bs : List β) (x : γ), x ∈ List.zipWith f as bs →
      ∃ a ∈ as, ∃ b ∈ bs, x = f a b
  | [], _, x, h => by simp at h
  | _ :: _, [], x, h => by simp at h
  | a :: as, b :: bs, x, h => by
    simp only [List.zipWith_cons_cons] at h
    rcases List.mem_cons.mp h with h | h
    · exact ⟨a, List.mem_cons_self _ _, b, List.mem_cons_self _ _, h⟩
    · obtain ⟨a', ha, b', hb, hx⟩ := exists_of_mem_zipWith f as bs x h
      exact ⟨a', List.mem_cons_of_mem _ ha, b', List.mem_cons_of_mem _ hb, hx⟩

lemma zipWith_ne_nil {α β γ : Type} (f : α → β → γ) {as : List α}
    {bs : List β} (ha : as ≠ []) (hb : bs ≠ []) :
    List.zipWith f as bs ≠ [] := by
  cases as with
  | nil => exact absurd rfl ha
  | cons a as =>
    cases bs with
    | nil => exact absurd rfl hb
    | cons b bs => simp

lemma torchMean_of_ne_nil (l : List ℝ) (h : l ≠ []) :
    torchMean l = some (l.sum / l.length) := by
  rw [torchMean, if_neg h]

lemma torchMean_nonneg (l : List ℝ) (h : l ≠ []) (hx : ∀ x ∈ l, 0 ≤ x) :
    ∃ m, torchMean l = some m ∧ 0 ≤ m :=
  ⟨_, torchMean_of_ne_nil l h,
    div_nonneg (List.sum_nonneg hx) (Nat.cast_nonneg _)⟩

/-! ### C5: the bond-angle term -/

lemma neg_one_le_clamp1 (x : ℝ) : -1 ≤ clamp1 x := le_max_left _ _

lemma clamp1_le_one (x : ℝ) : clamp1 x ≤ 1 :=
  max_le (by norm_num) (min_le_right _ _)

lemma angleDenom_pos (positions : List Pt) (ijk : ℕ × ℕ × ℕ) :
    0 < angleDenom positions ijk := by
  simp only [angleDenom, norm3, angleEps]
  positivity

lemma cosOfTriple_eq_clamped (positions : List Pt) (ijk : ℕ × ℕ × ℕ) :
    cosOfTriple positions ijk
      = clamp1 (dot3 (getPos positions ijk.1 - getPos positions ijk.2.1)
          (getPos positions ijk.2.2 - getPos positions ijk.2.1)
          / angleDenom positions ijk) := rfl

/-- C5: on every pair of non-empty angle-index and target lists,
`bond_angle_loss` returns the mean of the squared differences between the
computed angles and the targets; for every triple the denominator
`|a|·|b| + 1e-6` is strictly positive, the cosine fed to arccos is the
clamped normalised dot product and lies in `[-1, 1]`, and the resulting
angle lies in `[0, π]` — so the value is defined and non-negative even
for degenerate zero-length vectors. -/
theorem bond_angle_loss_clamped_finite_mean (positions : List Pt)
    (angle_indices : List (ℕ × ℕ × ℕ)) (target_angles_rad : List ℝ)
    (hne : angle_indices ≠ []) (htne : target_angles_rad ≠ []) :
    ∃ L, bond_angle_loss positions angle_indices target_angles_rad
        = some L ∧
      L = (List.zipWith (fun ijk t => (angleOfTriple positions ijk - t) ^ 2)
              angle_indices target_angles_rad).sum
          / (List.zipWith (fun ijk t => (angleOfTriple positions ijk - t) ^ 2)
              angle_indices target_angles_rad).length ∧
      0 ≤ L ∧
      ∀ ijk : ℕ × ℕ × ℕ,
        0 < angleDenom positions ijk ∧
        cosOfTriple positions ijk
          = clamp1 (dot3 (getPos positions ijk.1 - getPos positions ijk.2.1)
              (getPos positions ijk.2.2 - getPos positions ijk.2.1)
              / angleDenom positions ijk) ∧
        -1 ≤ cosOfTriple positions ijk ∧ cosOfTriple positions ijk ≤ 1 ∧
        0 ≤ angleOfTriple positions ijk ∧
        angleOfTriple positions ijk ≤ Real.pi := by
  have hz := zipWith_ne_nil
    (fun ijk t => (angleOfTriple positions ijk - t) ^ 2) hne htne
  refine ⟨_, ?_, rfl, ?_, ?_⟩
  · rw [bond_angle_loss]
    exact torchMean_of_ne_nil _ hz
  · refine div_nonneg (List.sum_nonneg fun x hx => ?_) (Nat.cast_nonneg _)
    obtain ⟨a, _, b, _, hab⟩ := exists_of_mem_zipWith _ _ _ x hx
    rw [hab]
    exact sq_nonneg _
  · intro ijk
    exact ⟨angleDenom_pos positions ijk, cosOfTriple_eq_clamped positions ijk,
      neg_one_le_clamp1 _, clamp1_le_one _,
      Real.arccos_nonneg _, Real.arccos_le_pi _⟩

/-- Witness for C5, on a fully degenerate input: one atom at the origin,
the triple `(0, 0, 0)` whose two difference vectors both have length zero,
target angle 0.  The epsilon and the clamp still give a defined,
non-negative mean. -/
theorem bond_angle_loss_clamped_finite_mean_witness :
    (([((0 : ℕ), (0 : ℕ), (0 : ℕ))] : List (ℕ × ℕ × ℕ)) ≠ [] ∧
        ([(0 : ℝ)] : List ℝ) ≠ []) ∧
      ∃ L, bond_angle_loss [![0, 0, 0]] [(0, 0, 0)] [0] = some L ∧
        L = (List.zipWith
                (fun ijk t => (angleOfTriple [![0, 0, 0]] ijk - t) ^ 2)
                [(0, 0, 0)] [0]).sum
            / (List.zipWith
                (fun ijk t => (angleOfTriple [![0, 0, 0]] ijk - t) ^ 2)
                [(0, 0, 0)] [0]).length ∧
        0 ≤ L ∧
        ∀ ijk : ℕ × ℕ × ℕ,
          0 < angleDenom [![0, 0, 0]] ijk ∧
          cosOfTriple [![0, 0, 0]] ijk
            = clamp1 (dot3 (getPos [![0, 0, 0]] ijk.1 - getPos [![0, 0, 0]] ijk.2.1)
                (getPos [![0, 0, 0]] ijk.2.2 - getPos [![0, 0, 0]] ijk.2.1)
                / angleDenom [![0, 0, 0]] ijk) ∧
          -1 ≤ cosOfTriple [![0, 0, 0]] ijk ∧
          cosOfTriple [![0, 0, 0]] ijk ≤ 1 ∧
          0 ≤ angleOfTriple [![0, 0, 0]] ijk ∧
          angleOfTriple [![0, 0, 0]] ijk ≤ Real.pi :=
  ⟨⟨by simp, by simp⟩,
    bond_angle_loss_clamped_finite_mean [![0, 0, 0]] [(0, 0, 0)] [0]
      (by simp) (by simp)⟩

/-! ### C9: non-negativity of every term and of the total -/

lemma chiralityGo_ok_of_valid (positions : List Pt) :
    ∀ (l : List (ℕ × List ℕ)) (acc : ℝ), (∀ p ∈ l, p.2.length = 4) →
      ∃ r, chiralityGo positions acc l = Except.ok r ∧ acc ≤ r
  | [], acc, _ => ⟨acc, rfl, le_refl acc⟩
  | (c, ns) :: rest, acc, h => by
    have h4 : ns.length = 4 := h (c, ns) (List.mem_cons_self _ _)
    rw [chiralityGo, if_neg (by simp [h4])]
    obtain ⟨r, hr, hle⟩ := chiralityGo_ok_of_valid positions rest
      (acc + relu (-chirVol positions c ns))
      (fun p hp => h p (List.mem_cons_of_mem _ hp))
    exact ⟨r, hr,
      le_trans (le_add_of_nonneg_right (relu_nonneg _)) hle⟩

lemma chirality_loss_ok_nonneg (positions : List Pt)
    (chiral_centers : List (ℕ × List ℕ))
    (h : ∀ p ∈ chiral_centers, p.2.length = 4) :
    ∃ ch, chirality_loss positions chiral_centers = Except.ok ch ∧ 0 ≤ ch :=
  chiralityGo_ok_of_valid positions chiral_centers 0 h

lemma steric_clash_loss_nonneg (positions : List Pt) (vdw_radii : List ℝ)
    (threshold : ℝ) : 0 ≤ steric_clash_loss positions vdw_radii threshold :=
  Finset.sum_nonneg fun _ _ => Finset.sum_nonneg fun _ _ => sq_nonneg _

lemma bond_length_some_nonneg (positions : List Pt)
    (bond_indices : List (ℕ × ℕ)) (target_lengths : List ℝ)
    (h1 : bond_indices ≠ []) (h2 : target_lengths ≠ []) :
    ∃ bl, bond_length_loss positions bond_indices target_lengths = some bl ∧
      0 ≤ bl := by
  rw [bond_length_loss]
  apply torchMean_nonneg _ (zipWith_ne_nil _ h1 h2)
  intro x hx
  obtain ⟨a, _, b, _, hab⟩ := exists_of_mem_zipWith _ _ _ x hx
  rw [hab]
  exact sq_nonneg _

lemma bond_angle_some_nonneg (positions : List Pt)
    (angle_indices : List (ℕ × ℕ × ℕ)) (target_angles_rad : List ℝ)
    (h1 : angle_indices ≠ []) (h2 : target_angles_rad ≠ []) :
    ∃ ba, bond_angle_loss positions angle_indices target_angles_rad
        = some ba ∧ 0 ≤ ba := by
  rw [bond_angle_loss]
  apply torchMean_nonneg _ (zipWith_ne_nil _ h1 h2)
  intro x hx
  obtain ⟨a, _, b, _, hab⟩ := exists_of_mem_zipWith _ _ _ x hx
  rw [hab]
  exact sq_nonneg _

lemma rp_flatten_ne_nil (ring_positions : List (List Pt))
    (normals : List Pt) (hr : ring_positions ≠ []) (hn : normals ≠ [])
    (hrne : ∀ r ∈ ring_positions, r ≠ []) :
    (List.zipWith ringSqDists ring_positions normals).flatten ≠ [] := by
  cases ring_positions with
  | nil => exact absurd rfl hr
  | cons r0 rs =>
    cases normals with
    | nil => exact absurd rfl hn
    | cons n0 nrest =>
      simp only [List.zipWith_cons_cons, List.flatten_cons]
      intro hnil
      have h0 : r0 ≠ [] := hrne r0 (List.mem_cons_self _ _)
      have : ringSqDists r0 n0 = [] := (List.append_eq_nil.mp hnil).1
      rw [ringSqDists, List.map_eq_nil_iff] at this
      exact h0 this

lemma ring_planarity_some_nonneg (ring_positions : List (List Pt))
    (normals : List Pt) (hr : ring_positions ≠ []) (hn : normals ≠ [])
    (hrne : ∀ r ∈ ring_positions, r ≠ []) :
    ∃ rp, ring_planarity_loss ring_positions normals = some rp ∧ 0 ≤ rp := by
  rw [ring_planarity_loss]
  apply torchMean_nonneg
  · exact rp_flatten_ne_nil ring_positions normals hr hn hrne
  · intro x hx
    rw [List.mem_flatten] at hx
    obtain ⟨l, hl, hxl⟩ := hx
    obtain ⟨ps, _, n, _, hlps⟩ := exists_of_mem_zipWith _ _ _ l hl
    rw [hlps, ringSqDists] at hxl
    obtain ⟨p, _, hp⟩ := List.mem_map.mp hxl
    rw [← hp]
    exact sq_nonneg _

/-- C9: with non-empty bond and angle sets, a non-empty ring set of
non-empty rings, and well-formed chirality constraints, every term is
non-negative and the aggregator returns a non-negative total. -/
theorem all_terms_and_total_nonneg (positions : List Pt)
    (bond_indices : List (ℕ × ℕ)) (bond_targets : List ℝ)
    (angle_indices : List (ℕ × ℕ × ℕ)) (angle_targets : List ℝ)
    (rings : List (List ℕ)) (ring_normals : List Pt)
    (vdw_radii : List ℝ) (chiral_centers : List (ℕ × List ℕ))
    (hbi : bond_indices ≠ []) (hbt : bond_targets ≠ [])
    (hai : angle_indices ≠ []) (hat : angle_targets ≠ [])
    (hr : rings ≠ []) (hn : ring_normals ≠ [])
    (hrne : ∀ r ∈ rings, r ≠ [])
    (hcc : ∀ p ∈ chiral_centers, p.2.length = 4) :
    (∀ threshold : ℝ,
        0 ≤ steric_clash_loss positions vdw_radii threshold) ∧
      ∃ bl ba rp ch T,
        bond_length_loss positions bond_indices bond_targets = some bl ∧
          0 ≤ bl ∧
        bond_angle_loss positions angle_indices angle_targets = some ba ∧
          0 ≤ ba ∧
        ring_planarity_loss (ringCoords positions rings) ring_normals
            = some rp ∧ 0 ≤ rp ∧
        chirality_loss positions chiral_centers = Except.ok ch ∧ 0 ≤ ch ∧
        total_loss positions bond_indices bond_targets angle_indices
            angle_targets rings ring_normals vdw_radii chiral_centers
          = Except.ok (some T) ∧ 0 ≤ T := by
  obtain ⟨bl, hbl, hbl0⟩ :=
    bond_length_some_nonneg positions bond_indices bond_targets hbi hbt
  obtain ⟨ba, hba, hba0⟩ :=
    bond_angle_some_nonneg positions angle_indices angle_targets hai hat
  obtain ⟨rp, hrp, hrp0⟩ :=
    ring_planarity_some_nonneg (ringCoords positions rings) ring_normals
      (by simpa [ringCoords] using hr) hn
      (by
        intro r hrc
        obtain ⟨r0, hr0, hmap⟩ := List.mem_map.mp hrc
        rw [← hmap]
        simpa using hrne r0 hr0)
  obtain ⟨ch, hch, hch0⟩ :=
    chirality_loss_ok_nonneg positions chiral_centers hcc
  have hsc := steric_clash_loss_nonneg positions vdw_radii (3 / 4)
  refine ⟨fun th => steric_clash_loss_nonneg positions vdw_radii th,
    bl, ba, rp, ch, _, hbl, hbl0, hba, hba0, hrp, hrp0, hch, hch0,
    total_loss_eq positions bond_indices bond_targets angle_indices
      angle_targets rings ring_normals vdw_radii chiral_centers
      bl ba rp ch hbl hba hrp hch, ?_⟩
  have : (0 : ℝ) ≤ 1 * bl + (1 / 2) * ba + (3 / 10) * rp
      + (1 / 5) * steric_clash_loss positions vdw_radii (3 / 4)
      + (1 / 5) * ch := by positivity
  exact this

/-- Witness for C9 on the two-atom fixture, with one ring and one
well-formed chirality constraint. -/
theorem all_terms_and_total_nonneg_witness :
    (([((0 : ℕ), (1 : ℕ))] : List (ℕ × ℕ)) ≠ [] ∧
        ([(1 : ℝ) / 10] : List ℝ) ≠ [] ∧
        ([((0 : ℕ), (1 : ℕ), (0 : ℕ))] : List (ℕ × ℕ × ℕ)) ≠ [] ∧
        ([demoAngleTarget] : List ℝ) ≠ [] ∧
        ([[(0 : ℕ), 1]] : List (List ℕ)) ≠ [] ∧
        ([![0, 0, 1]] : List Pt) ≠ [] ∧
        (∀ r ∈ ([[(0 : ℕ), 1]] : List (List ℕ)), r ≠ []) ∧
        (∀ p ∈ ([(0, [0, 1, 0, 1])] : List (ℕ × List ℕ)),
          p.2.length = 4)) ∧
      ((∀ threshold : ℝ,
          0 ≤ steric_clash_loss demoPos [1, 1] threshold) ∧
        ∃ bl ba rp ch T,
          bond_length_loss demoPos [(0, 1)] [1 / 10] = some bl ∧ 0 ≤ bl ∧
          bond_angle_loss demoPos [(0, 1, 0)] [demoAngleTarget]
              = some ba ∧ 0 ≤ ba ∧
          ring_planarity_loss (ringCoords demoPos [[0, 1]]) [![0, 0, 1]]
              = some rp ∧ 0 ≤ rp ∧
          chirality_loss demoPos [(0, [0, 1, 0, 1])] = Except.ok ch ∧
            0 ≤ ch ∧
          total_loss demoPos [(0, 1)] [1 / 10] [(0, 1, 0)]
              [demoAngleTarget] [[0, 1]] [![0, 0, 1]] [1, 1]
              [(0, [0, 1, 0, 1])]
            = Except.ok (some T) ∧ 0 ≤ T) :=
  ⟨⟨by simp, by simp, by simp, by simp, by simp, by simp,
      by simp, by decide⟩,
    all_terms_and_total_nonneg demoPos [(0, 1)] [1 / 10] [(0, 1, 0)]
      [demoAngleTarget] [[0, 1]] [![0, 0, 1]] [1, 1] [(0, [0, 1, 0, 1])]
      (by simp) (by simp) (by simp) (by simp) (by simp) (by simp)
      (by simp) (by decide)⟩

/-! ### C8: stretching a single bond strictly increases the loss -/

lemma list_sum_eq_range (l : List ℝ) :
    l.sum = ∑ m ∈ Finset.range l.length, l.getD m 0 := by
  induction l with
  | nil => simp
  | cons a l ih =>
    rw [List.sum_cons, ih, List.length_cons, Finset.sum_range_succ']
    simp [add_comm]

lemma sum_lt_of_getD (u v : List ℝ) (hlen : u.length = v.length) (k : ℕ)
    (hk : k < u.length)
    (hle : ∀ m, m < u.length → u.getD m 0 ≤ v.getD m 0)
    (hlt : u.getD k 0 < v.getD k 0) : u.sum < v.sum := by
  rw [list_sum_eq_range u, list_sum_eq_range v, ← hlen]
  exact Finset.sum_lt_sum (fun m hm => hle m (Finset.mem_range.mp hm))
    ⟨k, Finset.mem_range.mpr hk, hlt⟩

lemma getD_zipWith {α β γ : Type} (f : α → β → γ) (as : List α)
    (bs : List β) (m : ℕ) (da : α) (db : β) (dc : γ)
    (ha : m < as.length) (hb : m < bs.length) :
    (List.zipWith f as bs).getD m dc = f (as.getD m da) (bs.getD m db) := by
  rw [List.getD_eq_getElem _ _ (by rw [List.length_zipWith]; omega),
    List.getD_eq_getElem _ _ ha, List.getD_eq_getElem _ _ hb]
  exact List.getElem_zipWith

/-- C8: if between two position sets every bond's predicted length is
unchanged except bond `k`, whose predicted length moves strictly farther
from its target, then `bond_length_loss` strictly increases; and if the
other four term values are unchanged, the total loss strictly increases. -/
theorem stretching_single_bond_increases_total (pos pos' : List Pt)
    (bond_indices : List (ℕ × ℕ)) (bond_targets : List ℝ)
    (k : ℕ) (hk : k < bond_indices.length)
    (hlen : bond_indices.length = bond_targets.length)
    (hother : ∀ m, m < bond_indices.length → m ≠ k →
      bondLen pos' (bond_indices.getD m (0, 0))
        = bondLen pos (bond_indices.getD m (0, 0)))
    (hstretch :
      |bondLen pos (bond_indices.getD k (0, 0)) - bond_targets.getD k 0|
        < |bondLen pos' (bond_indices.getD k (0, 0))
            - bond_targets.getD k 0|)
    (angle_indices : List (ℕ × ℕ × ℕ)) (angle_targets : List ℝ)
    (rings : List (List ℕ)) (ring_normals : List Pt)
    (vdw_radii : List ℝ) (chiral_centers : List (ℕ × List ℕ))
    (ba rp ch : ℝ)
    (hba : bond_angle_loss pos angle_indices angle_targets = some ba)
    (hba' : bond_angle_loss pos' angle_indices angle_targets = some ba)
    (hrp : ring_planarity_loss (ringCoords pos rings) ring_normals
      = some rp)
    (hrp' : ring_planarity_loss (ringCoords pos' rings) ring_normals
      = some rp)
    (hch : chirality_loss pos chiral_centers = Except.ok ch)
    (hch' : chirality_loss pos' chiral_centers = Except.ok ch)
    (hsc : steric_clash_loss pos' vdw_radii (3 / 4)
      = steric_clash_loss pos vdw_radii (3 / 4)) :
    ∃ L L', bond_length_loss pos bond_indices bond_targets = some L ∧
      bond_length_loss pos' bond_indices bond_targets = some L' ∧
      L < L' ∧
      ∃ T T',
        total_loss pos bond_indices bond_targets angle_indices
            angle_targets rings ring_normals vdw_radii chiral_centers
          = Except.ok (some T) ∧
        total_loss pos' bond_indices bond_targets angle_indices
            angle_targets rings ring_normals vdw_radii chiral_centers
          = Except.ok (some T') ∧
        T < T' := by
  have hbt : k < bond_targets.length := hlen ▸ hk
  set u := List.zipWith
    (fun b t =>
      (dist3 (getPos pos b.1) (getPos pos b.2) - t) ^ 2)
    bond_indices bond_targets with hu
  set v := List.zipWith
    (fun b t =>
      (dist3 (getPos pos' b.1) (getPos pos' b.2) - t) ^ 2)
    bond_indices bond_targets with hv
  have hulen : u.length = bond_indices.length := by
    rw [hu, List.length_zipWith, ← hlen, min_self]
  have hvlen : v.length = bond_indices.length := by
    rw [hv, List.length_zipWith, ← hlen, min_self]
  have hue : ∀ m, m < bond_indices.length →
      u.getD m 0 = (bondLen pos (bond_indices.getD m (0, 0))
        - bond_targets.getD m 0) ^ 2 := by
    intro m hm
    rw [hu, getD_zipWith _ _ _ m (0, 0) 0 0 hm (hlen ▸ hm)]
    rfl
  have hve : ∀ m, m < bond_indices.length →
      v.getD m 0 = (bondLen pos' (bond_indices.getD m (0, 0))
        - bond_targets.getD m 0) ^ 2 := by
    intro m hm
    rw [hv, getD_zipWith _ _ _ m (0, 0) 0 0 hm (hlen ▸ hm)]
    rfl
  have hkk : (bondLen pos (bond_indices.getD k (0, 0))
      - bond_targets.getD k 0) ^ 2
      < (bondLen pos' (bond_indices.getD k (0, 0))
        - bond_targets.getD k 0) ^ 2 := by
    rw [← sq_abs (bondLen pos (bond_indices.getD k (0, 0))
      - bond_targets.getD k 0),
      ← sq_abs (bondLen pos' (bond_indices.getD k (0, 0))
        - bond_targets.getD k 0)]
    exact pow_lt_pow_left₀ hstretch (abs_nonneg _) (by norm_num)
  have hsum : u.sum < v.sum := by
    apply sum_lt_of_getD u v (by rw [hulen, hvlen]) k (hulen ▸ hk)
    · intro m hm
      have hm' : m < bond_indices.length := hulen ▸ hm
      rw [hue m hm', hve m hm']
      by_cases hmk : m = k
      · subst hmk
        exact le_of_lt hkk
      · rw [hother m hm' hmk]
    · rw [hue k hk, hve k hk]
      exact hkk
  have hune : u ≠ [] := by
    intro hnil
    rw [hnil] at hulen
    simp at hulen
    omega
  have hvne : v ≠ [] := by
    intro hnil
    rw [hnil] at hvlen
    simp at hvlen
    omega
  have hnpos : (0 : ℝ) < bond_indices.length := by
    have : 0 < bond_indices.length := lt_of_le_of_lt (Nat.zero_le k) hk
    exact_mod_cast this
  have hL : bond_length_loss pos bond_indices bond_targets
      = some (u.sum / bond_indices.length) := by
    rw [bond_length_loss, ← hu, torchMean_of_ne_nil u hune, hulen]
  have hL' : bond_length_loss pos' bond_indices bond_targets
      = some (v.sum / bond_indices.length) := by
    rw [bond_length_loss, ← hv, torchMean_of_ne_nil v hvne, hvlen]
  have hLlt : u.sum / (bond_indices.length : ℝ)
      < v.sum / bond_indices.length :=
    (div_lt_div_iff_of_pos_right hnpos).mpr hsum
  refine ⟨_, _, hL, hL', hLlt, _, _,
    total_loss_eq pos bond_indices bond_targets angle_indices
      angle_targets rings ring_normals vdw_radii chiral_centers
      _ ba rp ch hL hba hrp hch,
    total_loss_eq pos' bond_indices bond_targets angle_indices
      angle_targets rings ring_normals vdw_radii chiral_centers
      _ ba rp ch hL' hba' hrp' hch', ?_⟩
  rw [hsc]
  linarith

/-! ### Evaluation on the stretch fixture (for the C8 witness) -/

lemma torchMean_zeros (l : List ℝ) (hne : l ≠ []) (h : ∀ x ∈ l, x = 0) :
    torchMean l = some 0 := by
  rw [torchMean_of_ne_nil l hne, List.sum_eq_zero h, zero_div]

lemma steric_zero_of_vdw_zero (pos : List Pt) (vdw : List ℝ) (th : ℝ)
    (h : ∀ m, vdw.getD m 0 = 0) : steric_clash_loss pos vdw th = 0 := by
  rw [steric_clash_loss]
  apply Finset.sum_eq_zero
  intro i _
  apply Finset.sum_eq_zero
  intro j _
  rw [h i, h j]
  have hd : th * (0 + 0) - dist3 (getPos pos i) (getPos pos j) ≤ 0 := by
    have := dist3_nonneg (getPos pos i) (getPos pos j)
    linarith
  rw [relu_of_nonpos hd]
  ring

lemma ptMean_z_zero (ps : List Pt) (h : ∀ p ∈ ps, p 2 = 0) :
    ptMean ps 2 = 0 := by
  rw [ptMean]
  rw [List.sum_eq_zero, zero_div]
  intro x hx
  obtain ⟨p, hp, hpx⟩ := List.mem_map.mp hx
  rw [← hpx]
  exact h p hp

lemma rp_single_planar (ps : List Pt) (hne : ps ≠ [])
    (h : ∀ p ∈ ps, p 2 = 0) :
    ring_planarity_loss [ps] [![0, 0, 1]] = some 0 := by
  rw [ring_planarity_loss]
  simp only [List.zipWith_cons_cons, List.zipWith_nil_right,
    List.flatten_cons, List.flatten_nil, List.append_nil]
  apply torchMean_zeros
  · rw [ringSqDists]
    simpa using hne
  · intro x hx
    rw [ringSqDists] at hx
    obtain ⟨p, hp, hpx⟩ := List.mem_map.mp hx
    rw [← hpx, dot3_eval]
    have h2 : (p - ptMean ps) 2 = 0 := by
      rw [Pi.sub_apply, h p hp, ptMean_z_zero ps h]
      ring
    simp [h2]

lemma stretch_bondLen : bondLen stretchPos (0, 1) = 1 := by
  rw [bondLen, dist3_eval]
  have h : (getPos stretchPos 0 0 - getPos stretchPos 1 0) ^ 2
      + (getPos stretchPos 0 1 - getPos stretchPos 1 1) ^ 2
      + (getPos stretchPos 0 2 - getPos stretchPos 1 2) ^ 2 = (1 : ℝ) ^ 2 := by
    simp [getPos, stretchPos, List.getD]
  rw [h, Real.sqrt_sq (by norm_num)]

lemma stretch_bondLen' : bondLen stretchPos' (0, 1) = 2 := by
  rw [bondLen, dist3_eval]
  have h : (getPos stretchPos' 0 0 - getPos stretchPos' 1 0) ^ 2
      + (getPos stretchPos' 0 1 - getPos stretchPos' 1 1) ^ 2
      + (getPos stretchPos' 0 2 - getPos stretchPos' 1 2) ^ 2 = (2 : ℝ) ^ 2 := by
    simp [getPos, stretchPos', List.getD]
  rw [h, Real.sqrt_sq (by norm_num)]

lemma stretch_ba :
    bond_angle_loss stretchPos [(0, 2, 3)] [Real.pi / 2] = some 0 := by
  rw [bond_angle_loss]
  simp only [List.zipWith]
  have hdot : dot3 (getPos stretchPos 0 - getPos stretchPos 2)
      (getPos stretchPos 3 - getPos stretchPos 2) = 0 := by
    rw [dot3_eval]
    simp [getPos, stretchPos, List.getD]
  rw [angleOfTriple, cosOfTriple]
  simp only
  rw [hdot, zero_div, clamp1]
  rw [show max (-1 : ℝ) (min 0 1) = 0 by norm_num]
  rw [Real.arccos_zero]
  rw [torchMean, if_neg (by simp)]
  norm_num

lemma stretch_ba' :
    bond_angle_loss stretchPos' [(0, 2, 3)] [Real.pi / 2] = some 0 := by
  rw [bond_angle_loss]
  simp only [List.zipWith]
  have hdot : dot3 (getPos stretchPos' 0 - getPos stretchPos' 2)
      (getPos stretchPos' 3 - getPos stretchPos' 2) = 0 := by
    rw [dot3_eval]
    simp [getPos, stretchPos', List.getD]
  rw [angleOfTriple, cosOfTriple]
  simp only
  rw [hdot, zero_div, clamp1]
  rw [show max (-1 : ℝ) (min 0 1) = 0 by norm_num]
  rw [Real.arccos_zero]
  rw [torchMean, if_neg (by simp)]
  norm_num

lemma stretch_rp :
    ring_planarity_loss (ringCoords stretchPos [[0, 2, 3]]) [![0, 0, 1]]
      = some 0 := by
  have hc : ringCoords stretchPos [[0, 2, 3]]
      = [[getPos stretchPos 0, getPos stretchPos 2, getPos stretchPos 3]] := rfl
  rw [hc]
  apply rp_single_planar _ (by simp)
  intro p hp
  rcases List.mem_cons.mp hp with h | hp
  · rw [h]; simp [getPos, stretchPos, List.getD]
  rcases List.mem_cons.mp hp with h | hp
  · rw [h]; simp [getPos, stretchPos, List.getD]
  rcases List.mem_cons.mp hp with h | hp
  · rw [h]; simp [getPos, stretchPos, List.getD]
  · simp at hp

lemma stretch_rp' :
    ring_planarity_loss (ringCoords stretchPos' [[0, 2, 3]]) [![0, 0, 1]]
      = some 0 := by
  have hc : ringCoords stretchPos' [[0, 2, 3]]
      = [[getPos stretchPos' 0, getPos stretchPos' 2, getPos stretchPos' 3]] := rfl
  rw [hc]
  apply rp_single_planar _ (by simp)
  intro p hp
  rcases List.mem_cons.mp hp with h | hp
  · rw [h]; simp [getPos, stretchPos', List.getD]
  rcases List.mem_cons.mp hp with h | hp
  · rw [h]; simp [getPos, stretchPos', List.getD]
  rcases List.mem_cons.mp hp with h | hp
  · rw [h]; simp [getPos, stretchPos', List.getD]
  · simp at hp

lemma vdw4_zero : ∀ m : ℕ, ([0, 0, 0, 0] : List ℝ).getD m 0 = 0 := by
  intro m
  rcases m with _ | _ | _ | _ | m <;> rfl

/-- Witness for C8: moving atom 1 of the stretch fixture from distance 1
(the target length) to distance 2 leaves the angle, ring, steric and
chirality terms unchanged and strictly increases both the bond-length
term and the total. -/
theorem stretching_single_bond_increases_total_witness :
    ((0 : ℕ) < ([((0 : ℕ), (1 : ℕ))] : List (ℕ × ℕ)).length ∧
        |bondLen stretchPos (([((0 : ℕ), (1 : ℕ))] : List (ℕ × ℕ)).getD 0 (0, 0))
            - ([(1 : ℝ)] : List ℝ).getD 0 0|
          < |bondLen stretchPos' (([((0 : ℕ), (1 : ℕ))] : List (ℕ × ℕ)).getD 0 (0, 0))
              - ([(1 : ℝ)] : List ℝ).getD 0 0|) ∧
      ∃ L L', bond_length_loss stretchPos [(0, 1)] [1] = some L ∧
        bond_length_loss stretchPos' [(0, 1)] [1] = some L' ∧
        L < L' ∧
        ∃ T T',
          total_loss stretchPos [(0, 1)] [1] [(0, 2, 3)] [Real.pi / 2]
              [[0, 2, 3]] [![0, 0, 1]] [0, 0, 0, 0] []
            = Except.ok (some T) ∧
          total_loss stretchPos' [(0, 1)] [1] [(0, 2, 3)] [Real.pi / 2]
              [[0, 2, 3]] [![0, 0, 1]] [0, 0, 0, 0] []
            = Except.ok (some T') ∧
          T < T' :=
  ⟨⟨by simp, by
      rw [show (([((0 : ℕ), (1 : ℕ))] : List (ℕ × ℕ)).getD 0 (0, 0)) = (0, 1) from rfl,
        show (([(1 : ℝ)] : List ℝ).getD 0 0) = 1 from rfl,
        stretch_bondLen, stretch_bondLen']
      norm_num⟩,
    stretching_single_bond_increases_total stretchPos stretchPos'
      [(0, 1)] [1] 0 (by simp) rfl
      (by intro m hm hmk; exact absurd (Nat.lt_one_iff.mp (by simpa using hm)) hmk)
      (by
        rw [show (([((0 : ℕ), (1 : ℕ))] : List (ℕ × ℕ)).getD 0 (0, 0)) = (0, 1) from rfl,
          show (([(1 : ℝ)] : List ℝ).getD 0 0) = 1 from rfl,
          stretch_bondLen, stretch_bondLen']
        norm_num)
      [(0, 2, 3)] [Real.pi / 2] [[0, 2, 3]] [![0, 0, 1]] [0, 0, 0, 0] []
      0 0 0 stretch_ba stretch_ba' stretch_rp stretch_rp' rfl rfl
      (by rw [steric_zero_of_vdw_zero stretchPos' _ _ vdw4_zero,
        steric_zero_of_vdw_zero stretchPos _ _ vdw4_zero])⟩

/-! ### C6: ring planarity is a least-squares plane fit -/

lemma quadform_expand (C : Matrix (Fin 3) (Fin 3) ℝ) (v : Pt) :
    dot3 v (C.mulVec v)
      = ∑ i : Fin 3, ∑ j : Fin 3, C i j * (v i * v j) := by
  simp only [dot3, Matrix.mulVec, Matrix.dotProduct, Fin.sum_univ_three]
  ring

lemma quad_entry_sum (l : List Pt) (v : Pt) :
    (l.map (fun c => dot3 c v ^ 2)).sum
      = ∑ i : Fin 3, ∑ j : Fin 3,
          (l.map (fun c => c i * c j)).sum * (v i * v j) := by
  induction l with
  | nil => simp
  | cons c l ih =>
    simp only [List.map_cons, List.sum_cons]
    rw [ih, dot3_eval]
    simp only [Fin.sum_univ_three]
    ring

lemma ringSqDists_sum_eq_quadform (ps : List Pt) (v : Pt) :
    (ringSqDists ps v).sum = dot3 v ((covMat ps).mulVec v) := by
  rw [quadform_expand]
  have h1 : ringSqDists ps v
      = (ps.map (fun p => p - ptMean ps)).map (fun c => dot3 c v ^ 2) := by
    rw [ringSqDists, List.map_map]
    rfl
  have h2 : ∀ i j : Fin 3, covMat ps i j
      = ((ps.map (fun p => p - ptMean ps)).map (fun c => c i * c j)).sum := by
    intro i j
    rw [List.map_map]
    rfl
  rw [h1, quad_entry_sum]
  refine Finset.sum_congr rfl fun i _ => Finset.sum_congr rfl fun j _ => ?_
  rw [h2 i j]

/-- C6: given per-ring normals that are the smallest-singular-value right
singular vectors of each ring's covariance matrix (unit minimisers of the
quadratic form), `ring_planarity_loss` is the mean over all rings and all
atoms of the squared signed out-of-plane distance (dot product of the
centroid-centred point with the normal); per ring that sum of squared
distances equals the covariance quadratic form at the normal, and is
minimal among all unit normals — the least-squares best-fit plane. -/
theorem ring_planarity_least_squares (ring_positions : List (List Pt))
    (normals : List Pt)
    (hlen : ring_positions.length = normals.length)
    (hne : ring_positions ≠ []) (hrne : ∀ r ∈ ring_positions, r ≠ [])
    (hsvd : ∀ pr ∈ List.zip ring_positions normals,
      IsMinNormal (covMat pr.1) pr.2) :
    ∃ L, ring_planarity_loss ring_positions normals = some L ∧
      L = (List.zipWith ringSqDists ring_positions normals).flatten.sum
          / (List.zipWith ringSqDists ring_positions normals).flatten.length ∧
      0 ≤ L ∧
      ∀ pr ∈ List.zip ring_positions normals,
        (ringSqDists pr.1 pr.2).sum
            = dot3 pr.2 ((covMat pr.1).mulVec pr.2) ∧
          ∀ v : Pt, sq3 v = 1 →
            (ringSqDists pr.1 pr.2).sum ≤ (ringSqDists pr.1 v).sum := by
  have hn : normals ≠ [] := by
    intro h
    rw [h] at hlen
    simp at hlen
    exact hne hlen
  have hflat := rp_flatten_ne_nil ring_positions normals hne hn hrne
  refine ⟨_, ?_, rfl, ?_, ?_⟩
  · rw [ring_planarity_loss]
    exact torchMean_of_ne_nil _ hflat
  · refine div_nonneg (List.sum_nonneg fun x hx => ?_) (Nat.cast_nonneg _)
    rw [List.mem_flatten] at hx
    obtain ⟨l, hl, hxl⟩ := hx
    obtain ⟨ps, _, n, _, hlps⟩ := exists_of_mem_zipWith _ _ _ l hl
    rw [hlps, ringSqDists] at hxl
    obtain ⟨p, _, hp⟩ := List.mem_map.mp hxl
    rw [← hp]
    exact sq_nonneg _
  · intro pr hpr
    have hmin := hsvd pr hpr
    refine ⟨ringSqDists_sum_eq_quadform pr.1 pr.2, fun v hv => ?_⟩
    rw [ringSqDists_sum_eq_quadform pr.1 pr.2,
      ringSqDists_sum_eq_quadform pr.1 v]
    exact hmin.2 v hv

lemma sqRing_ptMean : ∀ i : Fin 3, ptMean sqRing i = 0 := by
  intro i
  fin_cases i <;> simp [ptMean, sqRing]

lemma sqRing_quadform (v : Pt) :
    dot3 v ((covMat sqRing).mulVec v) = 2 * v 0 ^ 2 + 2 * v 1 ^ 2 := by
  rw [quadform_expand]
  simp only [Fin.sum_univ_three, covMat, sqRing_ptMean]
  simp only [sqRing, List.map_cons, List.map_nil, List.sum_cons,
    List.sum_nil]
  norm_num
  ring

lemma sqRing_min : IsMinNormal (covMat sqRing) ![0, 0, 1] := by
  constructor
  · rw [sq3, dot3_eval]
    norm_num
  · intro v hv
    rw [sqRing_quadform, sqRing_quadform]
    norm_num
    positivity

/-- Witness for C6: the square ring with normal `(0, 0, 1)`, which is a
unit minimiser of its covariance quadratic form. -/
theorem ring_planarity_least_squares_witness :
    (([sqRing] : List (List Pt)).length = ([![0, 0, 1]] : List Pt).length ∧
        ([sqRing] : List (List Pt)) ≠ [] ∧
        (∀ r ∈ ([sqRing] : List (List Pt)), r ≠ []) ∧
        (∀ pr ∈ List.zip [sqRing] [![0, 0, 1]],
          IsMinNormal (covMat pr.1) pr.2)) ∧
      ∃ L, ring_planarity_loss [sqRing] [![0, 0, 1]] = some L ∧
        L = (List.zipWith ringSqDists [sqRing] [![0, 0, 1]]).flatten.sum
            / (List.zipWith ringSqDists [sqRing] [![0, 0, 1]]).flatten.length ∧
        0 ≤ L ∧
        ∀ pr ∈ List.zip [sqRing] [![0, 0, 1]],
          (ringSqDists pr.1 pr.2).sum
              = dot3 pr.2 ((covMat pr.1).mulVec pr.2) ∧
            ∀ v : Pt, sq3 v = 1 →
              (ringSqDists pr.1 pr.2).sum ≤ (ringSqDists pr.1 v).sum :=
  ⟨⟨rfl, by simp,
      by
        intro r hr
        rw [List.mem_singleton.mp hr]
        simp [sqRing],
      by
        intro pr hpr
        rw [List.mem_singleton.mp hpr]
        exact sqRing_min⟩,
    ring_planarity_least_squares [sqRing] [![0, 0, 1]] rfl (by simp)
      (by
        intro r hr
        rw [List.mem_singleton.mp hr]
        simp [sqRing])
      (by
        intro pr hpr
        rw [List.mem_singleton.mp hpr]
        exact sqRing_min)⟩

/-! ### C7: rigid-motion invariance -/

lemma dot3_eq_dotProduct (x y : Pt) : dot3 x y = Matrix.dotProduct x y := rfl

lemma dot3_mulVec_orth (R : Matrix (Fin 3) (Fin 3) ℝ) (hR : R.transpose * R = 1)
    (x y : Pt) : dot3 (R.mulVec x) (R.mulVec y) = dot3 x y := by
  rw [dot3_eq_dotProduct, dot3_eq_dotProduct]
  rw [Matrix.dotProduct_mulVec, ← Matrix.mulVec_transpose,
    Matrix.mulVec_mulVec, hR, Matrix.one_mulVec]

lemma sq3_mulVec_orth (R : Matrix (Fin 3) (Fin 3) ℝ) (hR : R.transpose * R = 1)
    (x : Pt) : sq3 (R.mulVec x) = sq3 x := by
  rw [sq3, sq3, dot3_mulVec_orth R hR]

lemma rigid_sub (R : Matrix (Fin 3) (Fin 3) ℝ) (t : Pt) (x y : Pt) :
    (R.mulVec x + t) - (R.mulVec y + t) = R.mulVec (x - y) := by
  rw [Matrix.mulVec_sub]
  abel

lemma dist3_rigid (R : Matrix (Fin 3) (Fin 3) ℝ) (hR : R.transpose * R = 1)
    (t : Pt) (x y : Pt) :
    dist3 (R.mulVec x + t) (R.mulVec y + t) = dist3 x y := by
  rw [dist3, dist3, norm3, norm3, rigid_sub, sq3_mulVec_orth R hR]

lemma getPos_map (f : Pt → Pt) (pos : List Pt) (i : ℕ)
    (h : i < pos.length) : getPos (pos.map f) i = f (getPos pos i) := by
  rw [getPos, getPos, List.getD_eq_getElem _ _ (by simpa using h),
    List.getD_eq_getElem _ _ h, List.getElem_map]

lemma zipWith_congr_mem {α β γ : Type} (f g : α → β → γ) :
    ∀ (as : List α) (bs : List β),
      (∀ a ∈ as, ∀ b ∈ bs, f a b = g a b) →
      List.zipWith f as bs = List.zipWith g as bs
  | [], _, _ => by simp
  | _ :: _, [], _ => by simp
  | a :: as, b :: bs, h => by
    simp only [List.zipWith_cons_cons]
    rw [h a (List.mem_cons_self _ _) b (List.mem_cons_self _ _),
      zipWith_congr_mem f g as bs
        (fun a' ha b' hb =>
          h a' (List.mem_cons_of_mem _ ha) b' (List.mem_cons_of_mem _ hb))]

lemma bond_length_loss_rigid (R : Matrix (Fin 3) (Fin 3) ℝ)
    (hR : R.transpose * R = 1) (t : Pt) (pos : List Pt)
    (bond_indices : List (ℕ × ℕ)) (bond_targets : List ℝ)
    (hbb : ∀ b ∈ bond_indices, b.1 < pos.length ∧ b.2 < pos.length) :
    bond_length_loss (pos.map fun p => R.mulVec p + t) bond_indices
        bond_targets
      = bond_length_loss pos bond_indices bond_targets := by
  rw [bond_length_loss, bond_length_loss]
  congr 1
  apply zipWith_congr_mem
  intro b hb tl _
  rw [getPos_map _ _ _ (hbb b hb).1, getPos_map _ _ _ (hbb b hb).2,
    dist3_rigid R hR]

lemma angleOfTriple_rigid (R : Matrix (Fin 3) (Fin 3) ℝ)
    (hR : R.transpose * R = 1) (t : Pt) (pos : List Pt) (ijk : ℕ × ℕ × ℕ)
    (h1 : ijk.1 < pos.length) (h2 : ijk.2.1 < pos.length)
    (h3 : ijk.2.2 < pos.length) :
    angleOfTriple (pos.map fun p => R.mulVec p + t) ijk
      = angleOfTriple pos ijk := by
  rw [angleOfTriple, angleOfTriple, cosOfTriple, cosOfTriple]
  rw [getPos_map _ _ _ h1, getPos_map _ _ _ h2, getPos_map _ _ _ h3]
  rw [rigid_sub, rigid_sub, dot3_mulVec_orth R hR,
    norm3, norm3, sq3_mulVec_orth R hR, sq3_mulVec_orth R hR]
  rfl

lemma bond_angle_loss_rigid (R : Matrix (Fin 3) (Fin 3) ℝ)
    (hR : R.transpose * R = 1) (t : Pt) (pos : List Pt)
    (angle_indices : List (ℕ × ℕ × ℕ)) (angle_targets : List ℝ)
    (hab : ∀ ijk ∈ angle_indices, ijk.1 < pos.length ∧
      ijk.2.1 < pos.length ∧ ijk.2.2 < pos.length) :
    bond_angle_loss (pos.map fun p => R.mulVec p + t) angle_indices
        angle_targets
      = bond_angle_loss pos angle_indices angle_targets := by
  rw [bond_angle_loss, bond_angle_loss]
  congr 1
  apply zipWith_congr_mem
  intro ijk hijk tl _
  rw [angleOfTriple_rigid R hR t pos ijk (hab ijk hijk).1
    (hab ijk hijk).2.1 (hab ijk hijk).2.2]

lemma steric_clash_loss_rigid (R : Matrix (Fin 3) (Fin 3) ℝ)
    (hR : R.transpose * R = 1) (t : Pt) (pos : List Pt) (vdw_radii : List ℝ)
    (threshold : ℝ) :
    steric_clash_loss (pos.map fun p => R.mulVec p + t) vdw_radii threshold
      = steric_clash_loss pos vdw_radii threshold := by
  rw [steric_clash_loss, steric_clash_loss, List.length_map]
  refine Finset.sum_congr rfl fun i hi => Finset.sum_congr rfl fun j hj => ?_
  rw [getPos_map _ _ _ (Finset.mem_range.mp hi),
    getPos_map _ _ _ (Finset.mem_range.mp hj), dist3_rigid R hR]

lemma list_sum_affine (c0 c1 c2 c3 : ℝ) (ps : List Pt) :
    (ps.map (fun p => c0 * p 0 + c1 * p 1 + c2 * p 2 + c3)).sum
      = c0 * (ps.map (fun p => p 0)).sum
        + c1 * (ps.map (fun p => p 1)).sum
        + c2 * (ps.map (fun p => p 2)).sum + c3 * ps.length := by
  induction ps with
  | nil => simp
  | cons p ps ih =>
    simp only [List.map_cons, List.sum_cons, List.length_cons]
    rw [ih]
    push_cast
    ring

lemma ptMean_map_rigid (R : Matrix (Fin 3) (Fin 3) ℝ) (t : Pt)
    (ps : List Pt) (h : ps ≠ []) :
    ptMean (ps.map fun p => R.mulVec p + t)
      = R.mulVec (ptMean ps) + t := by
  have hmv : ∀ (p : Pt) (i : Fin 3),
      R.mulVec p i = R i 0 * p 0 + R i 1 * p 1 + R i 2 * p 2 := by
    intro p i
    simp [Matrix.mulVec, Matrix.dotProduct, Fin.sum_univ_three]
  have hn0 : ps.length ≠ 0 := fun hh => h (List.length_eq_zero.mp hh)
  have hn : (ps.length : ℝ) ≠ 0 := Nat.cast_ne_zero.mpr hn0
  funext i
  have hcomp : ((fun p : Pt => p i) ∘ fun p : Pt => R.mulVec p + t)
      = fun p : Pt => R i 0 * p 0 + R i 1 * p 1 + R i 2 * p 2 + t i := by
    funext p
    simp [hmv p i]
  simp only [ptMean, List.map_map, List.length_map, hcomp, list_sum_affine]
  rw [Pi.add_apply, hmv (ptMean ps) i]
  simp only [ptMean]
  field_simp

lemma ringSqDists_map_rigid (R : Matrix (Fin 3) (Fin 3) ℝ) (t : Pt)
    (ps : List Pt) (h : ps ≠ []) (v : Pt) :
    ringSqDists (ps.map fun p => R.mulVec p + t) v
      = ps.map fun p => dot3 (R.mulVec (p - ptMean ps)) v ^ 2 := by
  rw [ringSqDists, List.map_map]
  apply List.map_congr_left
  intro p _
  simp only [Function.comp_apply]
  rw [ptMean_map_rigid R t ps h, rigid_sub]

lemma dot3_mulVec_left (R : Matrix (Fin 3) (Fin 3) ℝ) (c v : Pt) :
    dot3 (R.mulVec c) v = dot3 c (R.transpose.mulVec v) := by
  rw [dot3_eq_dotProduct, dot3_eq_dotProduct]
  rw [Matrix.dotProduct_comm, Matrix.dotProduct_mulVec,
    ← Matrix.mulVec_transpose, Matrix.dotProduct_comm]

lemma ringSqDists_sum_rigid (R : Matrix (Fin 3) (Fin 3) ℝ) (t : Pt)
    (ps : List Pt) (h : ps ≠ []) (v : Pt) :
    (ringSqDists (ps.map fun p => R.mulVec p + t) v).sum
      = (ringSqDists ps (R.transpose.mulVec v)).sum := by
  rw [ringSqDists_map_rigid R t ps h v, ringSqDists]
  congr 1
  apply List.map_congr_left
  intro p _
  rw [dot3_mulVec_left]

lemma ringSqDists_sum_inv (R : Matrix (Fin 3) (Fin 3) ℝ) (t : Pt)
    (hR : R.transpose * R = 1) (ps : List Pt) (n n' : Pt)
    (hn : IsMinNormal (covMat ps) n)
    (hn' : IsMinNormal (covMat (ps.map fun p => R.mulVec p + t)) n') :
    (ringSqDists (ps.map fun p => R.mulVec p + t) n').sum
      = (ringSqDists ps n).sum := by
  by_cases h : ps = []
  · subst h
    simp [ringSqDists]
  · have hRRt : R * R.transpose = 1 := Matrix.mul_eq_one_comm.mp hR
    have hRt : (R.transpose).transpose * R.transpose = 1 := by
      rw [Matrix.transpose_transpose]
      exact hRRt
    apply le_antisymm
    · have h1 : sq3 (R.mulVec n) = 1 := by
        rw [sq3_mulVec_orth R hR]
        exact hn.1
      have h2 := hn'.2 (R.mulVec n) h1
      rw [← ringSqDists_sum_eq_quadform, ← ringSqDists_sum_eq_quadform] at h2
      calc (ringSqDists (ps.map fun p => R.mulVec p + t) n').sum
          ≤ (ringSqDists (ps.map fun p => R.mulVec p + t)
              (R.mulVec n)).sum := h2
        _ = (ringSqDists ps (R.transpose.mulVec (R.mulVec n))).sum :=
            ringSqDists_sum_rigid R t ps h (R.mulVec n)
        _ = (ringSqDists ps n).sum := by
            rw [Matrix.mulVec_mulVec, hR, Matrix.one_mulVec]
    · have h1 : sq3 (R.transpose.mulVec n') = 1 := by
        rw [sq3_mulVec_orth R.transpose hRt]
        exact hn'.1
      have h2 := hn.2 (R.transpose.mulVec n') h1
      rw [← ringSqDists_sum_eq_quadform, ← ringSqDists_sum_eq_quadform] at h2
      calc (ringSqDists ps n).sum
          ≤ (ringSqDists ps (R.transpose.mulVec n')).sum := h2
        _ = (ringSqDists (ps.map fun p => R.mulVec p + t) n').sum :=
            (ringSqDists_sum_rigid R t ps h n').symm

lemma torchMean_congr (l l' : List ℝ) (hlen : l.length = l'.length)
    (hsum : l.sum = l'.sum) : torchMean l = torchMean l' := by
  have he : (l = []) ↔ (l' = []) := by
    rw [← List.length_eq_zero, ← List.length_eq_zero, hlen]
  rw [torchMean, torchMean, hsum, hlen]
  by_cases h : l = []
  · rw [if_pos h, if_pos (he.mp h)]
  · rw [if_neg h, if_neg (fun hh => h (he.mpr hh))]

lemma rp_rigid_flatten (R : Matrix (Fin 3) (Fin 3) ℝ) (t : Pt)
    (hR : R.transpose * R = 1) (pos : List Pt) (rs : List (List ℕ)) :
    ∀ (ns ns' : List Pt),
      ns.length = rs.length → ns'.length = rs.length →
      (∀ r ∈ rs, ∀ k ∈ r, k < pos.length) →
      (∀ pr ∈ (ringCoords pos rs).zip ns, IsMinNormal (covMat pr.1) pr.2) →
      (∀ pr ∈ (ringCoords (pos.map fun p => R.mulVec p + t) rs).zip ns',
        IsMinNormal (covMat pr.1) pr.2) →
      (List.zipWith ringSqDists
            (ringCoords (pos.map fun p => R.mulVec p + t) rs) ns').flatten.length
          = (List.zipWith ringSqDists (ringCoords pos rs) ns).flatten.length ∧
        (List.zipWith ringSqDists
            (ringCoords (pos.map fun p => R.mulVec p + t) rs) ns').flatten.sum
          = (List.zipWith ringSqDists (ringCoords pos rs) ns).flatten.sum := by
  induction rs with
  | nil =>
    intro ns ns' _ _ _ _ _
    simp [ringCoords]
  | cons r rest ih =>
    intro ns ns' hlen hlen' hb hsvd hsvd'
    cases ns with
    | nil => simp at hlen
    | cons n nrest =>
      cases ns' with
      | nil => simp at hlen'
      | cons n' nrest' =>
        have hbr : ∀ k ∈ r, k < pos.length := hb r (List.mem_cons_self _ _)
        have hc : r.map (getPos (pos.map fun p => R.mulVec p + t))
            = (r.map (getPos pos)).map (fun p => R.mulVec p + t) := by
          rw [List.map_map]
          apply List.map_congr_left
          intro k hk
          exact getPos_map _ pos k (hbr k hk)
        have hzip : (ringCoords pos (r :: rest)).zip (n :: nrest)
            = (r.map (getPos pos), n)
              :: (ringCoords pos rest).zip nrest := by
          simp [ringCoords]
        have hzip' : (ringCoords (pos.map fun p => R.mulVec p + t)
              (r :: rest)).zip (n' :: nrest')
            = (r.map (getPos (pos.map fun p => R.mulVec p + t)), n')
              :: (ringCoords (pos.map fun p => R.mulVec p + t) rest).zip
                nrest' := by
          simp [ringCoords]
        have hn : IsMinNormal (covMat (r.map (getPos pos))) n := by
          have := hsvd (r.map (getPos pos), n)
            (by rw [hzip]; exact List.mem_cons_self _ _)
          exact this
        have hn' : IsMinNormal
            (covMat ((r.map (getPos pos)).map fun p => R.mulVec p + t))
            n' := by
          have := hsvd' (r.map (getPos (pos.map fun p => R.mulVec p + t)), n')
            (by rw [hzip']; exact List.mem_cons_self _ _)
          rw [hc] at this
          exact this
        have hsum : (ringSqDists
              (r.map (getPos (pos.map fun p => R.mulVec p + t))) n').sum
            = (ringSqDists (r.map (getPos pos)) n).sum := by
          rw [hc]
          exact ringSqDists_sum_inv R t hR _ n n' hn hn'
        have hlength : (ringSqDists
              (r.map (getPos (pos.map fun p => R.mulVec p + t))) n').length
            = (ringSqDists (r.map (getPos pos)) n).length := by
          rw [hc, ringSqDists, ringSqDists]
          simp
        obtain ⟨ihl, ihs⟩ := ih nrest nrest' (by simpa using hlen)
          (by simpa using hlen')
          (fun r' hr' => hb r' (List.mem_cons_of_mem _ hr'))
          (fun pr hpr => hsvd pr
            (by rw [hzip]; exact List.mem_cons_of_mem _ hpr))
          (fun pr hpr => hsvd' pr
            (by rw [hzip']; exact List.mem_cons_of_mem _ hpr))
        constructor
        · simp only [ringCoords, List.map_cons, List.zipWith_cons_cons,
            List.flatten_cons, List.length_append]
          simp only [ringCoords] at ihl hlength
          rw [ihl, hlength]
        · simp only [ringCoords, List.map_cons, List.zipWith_cons_cons,
            List.flatten_cons, List.sum_append]
          simp only [ringCoords] at ihs hsum
          rw [ihs, hsum]

lemma ring_planarity_loss_rigid (R : Matrix (Fin 3) (Fin 3) ℝ) (t : Pt)
    (hR : R.transpose * R = 1) (pos : List Pt) (rings : List (List ℕ))
    (normals normals' : List Pt)
    (hlen : normals.length = rings.length)
    (hlen' : normals'.length = rings.length)
    (hrb : ∀ r ∈ rings, ∀ k ∈ r, k < pos.length)
    (hsvd : ∀ pr ∈ (ringCoords pos rings).zip normals,
      IsMinNormal (covMat pr.1) pr.2)
    (hsvd' : ∀ pr ∈ (ringCoords (pos.map fun p => R.mulVec p + t)
        rings).zip normals', IsMinNormal (covMat pr.1) pr.2) :
    ring_planarity_loss (ringCoords (pos.map fun p => R.mulVec p + t) rings)
        normals'
      = ring_planarity_loss (ringCoords pos rings) normals := by
  obtain ⟨hl, hs⟩ := rp_rigid_flatten R t hR pos rings normals normals'
    hlen hlen' hrb hsvd hsvd'
  rw [ring_planarity_loss, ring_planarity_loss]
  exact torchMean_congr _ _ hl hs

/-- C7: applying a rigid motion (an orthogonal matrix of determinant 1
composed with a translation) to all atom positions leaves the bond length,
bond angle, steric clash and ring planarity terms unchanged, the latter
for any per-ring normals that are unit minimisers of the respective
covariance quadratic forms (the `torch.svd` output) before and after the
motion. -/
theorem rigid_motion_invariance
    (R : Matrix (Fin 3) (Fin 3) ℝ) (t : Pt)
    (hR : R.transpose * R = 1) (hdet : R.det = 1)
    (pos : List Pt)
    (bond_indices : List (ℕ × ℕ)) (bond_targets : List ℝ)
    (hbb : ∀ b ∈ bond_indices, b.1 < pos.length ∧ b.2 < pos.length)
    (angle_indices : List (ℕ × ℕ × ℕ)) (angle_targets : List ℝ)
    (hab : ∀ ijk ∈ angle_indices, ijk.1 < pos.length ∧
      ijk.2.1 < pos.length ∧ ijk.2.2 < pos.length)
    (vdw_radii : List ℝ) (threshold : ℝ)
    (rings : List (List ℕ)) (hrb : ∀ r ∈ rings, ∀ k ∈ r, k < pos.length)
    (normals normals' : List Pt)
    (hlen : normals.length = rings.length)
    (hlen' : normals'.length = rings.length)
    (hsvd : ∀ pr ∈ (ringCoords pos rings).zip normals,
      IsMinNormal (covMat pr.1) pr.2)
    (hsvd' : ∀ pr ∈ (ringCoords (pos.map fun p => R.mulVec p + t)
        rings).zip normals', IsMinNormal (covMat pr.1) pr.2) :
    bond_length_loss (pos.map fun p => R.mulVec p + t) bond_indices
        bond_targets
      = bond_length_loss pos bond_indices bond_targets ∧
    bond_angle_loss (pos.map fun p => R.mulVec p + t) angle_indices
        angle_targets
      = bond_angle_loss pos angle_indices angle_targets ∧
    steric_clash_loss (pos.map fun p => R.mulVec p + t) vdw_radii threshold
      = steric_clash_loss pos vdw_radii threshold ∧
    ring_planarity_loss (ringCoords (pos.map fun p => R.mulVec p + t) rings)
        normals'
      = ring_planarity_loss (ringCoords pos rings) normals :=
  ⟨bond_length_loss_rigid R hR t pos bond_indices bond_targets hbb,
    bond_angle_loss_rigid R hR t pos angle_indices angle_targets hab,
    steric_clash_loss_rigid R hR t pos vdw_radii threshold,
    ring_planarity_loss_rigid R t hR pos rings normals normals'
      hlen hlen' hrb hsvd hsvd'⟩

/-- Witness for C7: the identity rotation (orthogonal, determinant 1)
composed with the translation `(5, -3, 2)` applied to the four-atom
fixture. -/
theorem rigid_motion_invariance_witness :
    ((1 : Matrix (Fin 3) (Fin 3) ℝ).transpose * 1 = 1 ∧
        (1 : Matrix (Fin 3) (Fin 3) ℝ).det = 1 ∧
        (∀ b ∈ ([((0 : ℕ), (1 : ℕ))] : List (ℕ × ℕ)),
          b.1 < stretchPos.length ∧ b.2 < stretchPos.length) ∧
        (∀ ijk ∈ ([((0 : ℕ), (2 : ℕ), (3 : ℕ))] : List (ℕ × ℕ × ℕ)),
          ijk.1 < stretchPos.length ∧ ijk.2.1 < stretchPos.length ∧
            ijk.2.2 < stretchPos.length)) ∧
      bond_length_loss
          (stretchPos.map fun p => (1 : Matrix (Fin 3) (Fin 3) ℝ).mulVec p
            + ![5, -3, 2]) [(0, 1)] [1]
        = bond_length_loss stretchPos [(0, 1)] [1] ∧
      bond_angle_loss
          (stretchPos.map fun p => (1 : Matrix (Fin 3) (Fin 3) ℝ).mulVec p
            + ![5, -3, 2]) [(0, 2, 3)] [Real.pi / 2]
        = bond_angle_loss stretchPos [(0, 2, 3)] [Real.pi / 2] ∧
      steric_clash_loss
          (stretchPos.map fun p => (1 : Matrix (Fin 3) (Fin 3) ℝ).mulVec p
            + ![5, -3, 2]) [1, 1, 1, 1] (3 / 4)
        = steric_clash_loss stretchPos [1, 1, 1, 1] (3 / 4) ∧
      ring_planarity_loss
          (ringCoords (stretchPos.map fun p =>
            (1 : Matrix (Fin 3) (Fin 3) ℝ).mulVec p + ![5, -3, 2]) []) []
        = ring_planarity_loss (ringCoords stretchPos []) [] :=
  ⟨⟨by simp, by simp,
      by
        intro b hb
        rw [List.mem_singleton.mp hb]
        exact ⟨by norm_num [stretchPos], by norm_num [stretchPos]⟩,
      by
        intro ijk hijk
        rw [List.mem_singleton.mp hijk]
        exact ⟨by norm_num [stretchPos], by norm_num [stretchPos],
          by norm_num [stretchPos]⟩⟩,
    rigid_motion_invariance 1 ![5, -3, 2] (by simp) (by simp) stretchPos
      [(0, 1)] [1]
      (by
        intro b hb
        rw [List.mem_singleton.mp hb]
        exact ⟨by norm_num [stretchPos], by norm_num [stretchPos]⟩)
      [(0, 2, 3)] [Real.pi / 2]
      (by
        intro ijk hijk
        rw [List.mem_singleton.mp hijk]
        exact ⟨by norm_num [stretchPos], by norm_num [stretchPos],
          by norm_num [stretchPos]⟩)
      [1, 1, 1, 1] (3 / 4) [] (by simp) [] [] rfl rfl
      (by simp [ringCoords]) (by simp [ringCoords])⟩

end PoseBusters
